import Mathlib

/-!
Verification of the smart-money-monitor service (src/index.js).

The development shallowly embeds the monitor's pure core: the DEX program
configuration, the substring-based transaction classifier
(`isDEXTransaction`), the base-58 wallet extractor
(`extractWalletAddresses`), the subscription request builder
(`subscribeToLogs`), the WebSocket message dispatcher (`handleMessage` /
`handleLogNotification`) with its deduplication cache, and the reconnect
backoff (`handleReconnect`).  Strings are modelled as `List Char` where
character-level scanning matters (log lines, addresses) and as `String`
where only equality matters (transaction signatures).  External writes to
the persistence store are modelled as an emitted list of `Effect` values.
-/

/-- The DEX program identifiers of `DEX_PROGRAM_IDS` in src/index.js
(RAYDIUM, JUPITER, ORCA, PUMP_FUN, METEORA, OPENBOOK), in object order;
`ACTIVE_DEX_PROGRAMS = Object.values(DEX_PROGRAM_IDS)`. -/
def ACTIVE_DEX_PROGRAMS : List (List Char) :=
  [ "675kPX9MHTjS2zt1qfr1NYHuzeLXfQM9H24wFSUt1Mp8".toList
  , "JUP6LkbZbjS1jKKwapdHNy74zcZ3tLUZoi5QNyVTaV4".toList
  , "whirLbMiicVdio4qvUfM5KAg6Ct8VwpYzGff3uctyCc".toList
  , "6EF8rrecthR5Dkzon8Nwu78hRvfCKubJ14M5uBEwF6P".toList
  , "Eo7WjKq67rjJQSZxS6z3YkapzY3eMj6Xy8X5EQVn5UaB".toList
  , "srmqPiDkJXRLGgxtFBRNJhGjLhQKLLqPKCCQGLFTQqo".toList
  ]

/-- The keyword tokens of `isDEXTransaction`. -/
def swapKw : List Char := "swap".toList

/-- The keyword tokens of `isDEXTransaction`. -/
def tradeKw : List Char := "trade".toList

/-- The keyword tokens of `isDEXTransaction`. -/
def exchangeKw : List Char := "exchange".toList

/-- `leadsWith nd l` is true when `nd` is an initial segment of `l`:
the anchored comparison JavaScript's `String.prototype.includes` performs
at each candidate position. -/
def leadsWith : List Char → List Char → Bool
  | [], _ => true
  | _ :: _, [] => false
  | a :: as, b :: bs => a == b && leadsWith as bs

/-- Embeds JavaScript `hay.includes(needle)` (used as
`log.includes(programId)` etc. in `isDEXTransaction`): true when `needle`
occurs contiguously anywhere in `hay`. -/
def hasSubstr : List Char → List Char → Bool
  | [], needle => leadsWith needle []
  | c :: rest, needle => leadsWith needle (c :: rest) || hasSubstr rest needle

/-- Specification-side reading of "contains ... as a substring": `needle`
occurs contiguously in `hay`. -/
def IsSubstrOf (needle hay : List Char) : Prop :=
  ∃ pre post, hay = pre ++ needle ++ post

/-- Embeds `isDEXTransaction(logs)` of src/index.js: some log line contains
one of the six configured DEX program ids, or the keyword `swap`, `trade`
or `exchange`, as a substring. -/
def isDEXTransaction (logs : List (List Char)) : Bool :=
  logs.any fun log =>
    (ACTIVE_DEX_PROGRAMS.any fun programId => hasSubstr log programId) ||
    hasSubstr log swapKw || hasSubstr log tradeKw || hasSubstr log exchangeKw

/-- The character class `[1-9A-HJ-NP-Za-km-z]` of the wallet regex in
`extractWalletAddresses` (base-58: digits and letters without `0`, `I`,
`O`, `l`). -/
def isB58 (c : Char) : Bool :=
  (('1' ≤ c && c ≤ '9') ||
   ('A' ≤ c && c ≤ 'Z' && c ≠ 'I' && c ≠ 'O') ||
   ('a' ≤ c && c ≤ 'z' && c ≠ 'l'))

/-- Structural worker for `splitRuns`: the fuel only bounds the recursion
depth (the list length always suffices) so that the function reduces inside
the kernel. -/
def splitRunsAux : Nat → List Char → List (List Char)
  | 0, _ => []
  | _ + 1, [] => []
  | fuel + 1, c :: cs =>
    if isB58 c then
      (c :: cs.takeWhile isB58) :: splitRunsAux fuel (cs.dropWhile isB58)
    else
      splitRunsAux fuel cs

/-- The maximal runs of base-58 characters of a log line, in order.  A
match of `/[1-9A-HJ-NP-Za-km-z]{32,44}/g` never crosses a non-class
character, so the global scan decomposes the line into these runs. -/
def splitRuns (l : List Char) : List (List Char) := splitRunsAux l.length l

/-- Structural worker for `chunksOfRun`, fuelled like `splitRunsAux`. -/
def chunksOfRunAux : Nat → List Char → List (List Char)
  | 0, _ => []
  | fuel + 1, run =>
    if 32 ≤ run.length then run.take 44 :: chunksOfRunAux fuel (run.drop 44) else []

/-- The greedy matches `/[1-9A-HJ-NP-Za-km-z]{32,44}/g` produces inside one
maximal base-58 run: while at least 32 class characters remain the regex
takes `min 44 remaining` of them and resumes right after the match; a
remainder shorter than 32 yields no further match at any position. -/
def chunksOfRun (run : List Char) : List (List Char) := chunksOfRunAux run.length run

/-- The match list of `log.match(walletRegex)` for one log line (the empty
list standing for JavaScript's `null`). -/
def lineMatches (l : List Char) : List (List Char) := (splitRuns l).flatMap chunksOfRun

/-- Insertion into a JavaScript `Set` materialised as its insertion-order
element list: a present element is left where it is, a new one appended. -/
def setInsert (s : List (List Char)) (a : List Char) : List (List Char) :=
  if a ∈ s then s else s ++ [a]

/-- The inner `matches.forEach` of `extractWalletAddresses`: every match
passing the (redundant) 32..44 length re-check is added to the set. -/
def addMatches (s : List (List Char)) (ms : List (List Char)) : List (List Char) :=
  ms.foldl (fun acc a => if 32 ≤ a.length && a.length ≤ 44 then setInsert acc a else acc) s

/-- Embeds `extractWalletAddresses(logs)` of src/index.js: scan every log
line with the wallet regex, collect all matches into a `Set`, and return
`Array.from` of it (first-occurrence order). -/
def extractWalletAddresses (logs : List (List Char)) : List (List Char) :=
  logs.foldl (fun acc log => addMatches acc (lineMatches log)) []

/-- Specification-side reading of "maximal substring drawn from the base-58
alphabet": a nonempty all-class token occurring in `l` such that the
characters immediately before and after the occurrence (when they exist)
are outside the class. -/
def MaximalRun (a l : List Char) : Prop :=
  a ≠ [] ∧ (∀ c ∈ a, isB58 c = true) ∧
  ∃ pre post, l = pre ++ a ++ post ∧
    (∀ d, pre.getLast? = some d → isB58 d = false) ∧
    (∀ d, post.head? = some d → isB58 d = false)

/-- A sample line for the C8 witness: a single base-58 run of length 33. -/
def wLine : List Char := List.replicate 33 'A'

/-- A `logsSubscribe` request as `subscribeToLogs` builds it: the JSON
`{jsonrpc, id, method: "logsSubscribe", params: [{mentions}, {commitment}]}`
flattened into a record. -/
structure SubRequest where
  id : Nat
  method : String
  mentions : List (List Char)
  commitment : String
  deriving DecidableEq, Repr

/-- One subscribe message of `subscribeToLogs`: a single address in the
`mentions` array, commitment `finalized`. -/
def mkSubscribeMsg (reqId : Nat) (addr : List Char) : SubRequest :=
  { id := reqId, method := "logsSubscribe", mentions := [addr], commitment := "finalized" }

/-- One `forEach` loop of `subscribeToLogs`: the element at 0-based index
`i` is sent with request id `firstId + i` (the source computes
`base + index + 1`, so `firstId` is `base + 1`). -/
def subscribeBatch (firstId : Nat) : List (List Char) → List SubRequest
  | [] => []
  | t :: ts => mkSubscribeMsg firstId t :: subscribeBatch (firstId + 1) ts

/-- Embeds `subscribeToLogs()` of src/index.js: when the socket is not open
nothing is sent; otherwise one request per DEX program (ids `index + 1`)
followed, when the tracked-wallet set is nonempty, by one request per
tracked wallet (ids `ACTIVE_DEX_PROGRAMS.length + index + 1`). -/
def subscribeToLogs (wsOpen : Bool) (trackedWallets : List (List Char)) : List SubRequest :=
  if wsOpen then
    subscribeBatch 1 ACTIVE_DEX_PROGRAMS ++
      (if 0 < trackedWallets.length then
        subscribeBatch (ACTIVE_DEX_PROGRAMS.length + 1) trackedWallets
      else [])
  else []

/-- Embeds the resubscription step of `refreshTrackedWallets()`: after
reloading the wallet set it calls `subscribeToLogs()` again when still
connected (the socket of a connected monitor is open), so the returned
list is what that call sends. -/
def refreshTrackedWallets (isConnected : Bool) (newWallets : List (List Char)) :
    List SubRequest :=
  if isConnected then subscribeToLogs true newWallets else []

/-- The candidate-wallet row `analyzeWalletProfitability` upserts into the
store (conflict key `wallet_address`): discovery source `DEX_activity`,
type `jupiter_swap`, initial score 50, confidence 0.5, status `pending`,
plus the originating signature and slot (`discovery_metadata`). -/
structure CandidateRecord where
  wallet_address : List Char
  discovery_source : String
  discovery_type : String
  initial_score : Nat
  confidence : ℚ
  status : String
  signature : String
  slot : Option Nat
  deriving DecidableEq, Repr

/-- The observable behaviour of the notification pipeline: the classifier
verdict, and every candidate-wallet upsert sent to the persistence store. -/
inductive Effect where
  | classified (relevant : Bool)
  | upsertCandidate (record : CandidateRecord)
  deriving DecidableEq, Repr

/-- The `context` field of a log notification. -/
structure LogContext where
  slot : Option Nat
  deriving DecidableEq, Repr

/-- The `value` field of a log notification; both fields may be absent in a
malformed payload. -/
structure LogValue where
  signature : Option String
  logs : Option (List (List Char))
  deriving DecidableEq, Repr

/-- `message.params.result` of a `logsNotification` push. -/
structure LogEntry where
  context : Option LogContext
  value : Option LogValue
  deriving DecidableEq, Repr

/-- The mutable fields of the `SolanaMonitor` class.  `subscriptionIds`,
`trackedWallets` and `processedTransactions` are JavaScript `Set`s,
materialised as their insertion-order element lists. -/
structure MonitorState where
  isConnected : Bool
  reconnectAttempts : Nat
  reconnectDelay : ℚ
  subscriptionIds : List Nat
  trackedWallets : List (List Char)
  processedTransactions : List String
  deriving DecidableEq, Repr

/-- The constructor values of `new SolanaMonitor()`. -/
def initialState : MonitorState :=
  { isConnected := false
  , reconnectAttempts := 0
  , reconnectDelay := 5000
  , subscriptionIds := []
  , trackedWallets := []
  , processedTransactions := [] }

/-- The guard `!logEntry?.value?.signature` of `handleLogNotification`:
`none` when the entry, its `value`, or the signature is absent — or when
the signature is the empty string, which is falsy in JavaScript. -/
def sigOf (e : Option LogEntry) : Option String :=
  match e with
  | none => none
  | some le =>
    match le.value with
    | none => none
    | some v =>
      match v.signature with
      | none => none
      | some s => if s = "" then none else some s

/-- The `logs` field destructured from `logEntry.value`. -/
def logsOf (e : Option LogEntry) : Option (List (List Char)) :=
  match e with
  | none => none
  | some le =>
    match le.value with
    | none => none
    | some v => v.logs

/-- `logEntry.context?.slot`. -/
def slotOf (e : Option LogEntry) : Option Nat :=
  match e with
  | none => none
  | some le =>
    match le.context with
    | none => none
    | some c => c.slot

/-- The JavaScript number `0.5` (the upserted `confidence`), written as the
normalised rational 1/2. -/
def half : ℚ := ⟨1, 2, by norm_num, by norm_num⟩

/-- The row built by `analyzeWalletProfitability` for one extracted
address. -/
def mkCandidate (addr : List Char) (sig : String) (slot : Option Nat) : CandidateRecord :=
  { wallet_address := addr
  , discovery_source := "DEX_activity"
  , discovery_type := "jupiter_swap"
  , initial_score := 50
  , confidence := half
  , status := "pending"
  , signature := sig
  , slot := slot }

/-- Embeds `handleLogNotification(logEntry)` of src/index.js together with
the downstream `processTransaction` → `quickWalletDiscovery` →
`analyzeWalletProfitability` chain it awaits.  A malformed payload is only
logged; a duplicate signature returns before any side effect; a novel
signature is inserted into `processedTransactions`, which is cut back to
its most recent 500 entries (`Array.from(set).slice(-500)`) when it
exceeds 1000; then the classifier runs, and on a match every address the
extractor finds is upserted as a candidate wallet.  When `logs` is absent
the call to `isDEXTransaction(undefined)` throws after the cache update
and the surrounding catch swallows the error, so no effect is emitted. -/
def handleLogNotification (st : MonitorState) (e : Option LogEntry) :
    MonitorState × List Effect :=
  match sigOf e with
  | none => (st, [])
  | some sig =>
    if sig ∈ st.processedTransactions then (st, [])
    else
      let cache1 := st.processedTransactions ++ [sig]
      let cache2 := if 1000 < cache1.length then cache1.drop (cache1.length - 500) else cache1
      let st1 := { st with processedTransactions := cache2 }
      match logsOf e with
      | none => (st1, [])
      | some logs =>
        if isDEXTransaction logs then
          (st1, Effect.classified true ::
            (extractWalletAddresses logs).map fun a =>
              Effect.upsertCandidate (mkCandidate a sig (slotOf e)))
        else (st1, [Effect.classified false])

/-- `message.params` of an inbound frame. -/
structure NotifParams where
  result : Option LogEntry
  deriving DecidableEq, Repr

/-- A parsed inbound WebSocket frame as `handleMessage` inspects it. -/
structure WsMessage where
  id : Option Nat
  result : Option Nat
  error : Option String
  method : Option String
  params : Option NotifParams
  deriving DecidableEq, Repr

/-- JavaScript truthiness of an optional numeric field: absent and 0 are
falsy. -/
def truthyNat : Option Nat → Bool
  | none => false
  | some n => !(n == 0)

/-- `Set.prototype.add` on `subscriptionIds`. -/
def setAddNat (s : List Nat) (n : Nat) : List Nat :=
  if n ∈ s then s else s ++ [n]

/-- Embeds `handleMessage(data)` of src/index.js after a successful JSON
parse: an ack (truthy `id` and `result`) records the subscription id and
returns; an error frame (truthy `id` and `error`) only logs; a
`logsNotification` with `params` goes to `handleLogNotification`; anything
else is ignored. -/
def handleMessage (st : MonitorState) (m : WsMessage) : MonitorState × List Effect :=
  if truthyNat m.id && truthyNat m.result then
    ({ st with subscriptionIds := setAddNat st.subscriptionIds (m.result.getD 0) }, [])
  else if truthyNat m.id && m.error.isSome then
    (st, [])
  else if m.method == some "logsNotification" && m.params.isSome then
    handleLogNotification st ((m.params.getD ⟨none⟩).result)
  else
    (st, [])

/-- `this.maxReconnectAttempts`. -/
def maxReconnectAttempts : Nat := 10

/-- The backoff update of `handleReconnect`:
`this.reconnectDelay = Math.min(this.reconnectDelay * 1.5, 60000)`
(the involved doubles are all dyadic rationals, so `ℚ` models the
JavaScript arithmetic exactly). -/
def backoffStep (d : ℚ) : ℚ := min (d * (3 / 2)) 60000

/-- Embeds `handleReconnect()` of src/index.js: at the attempt ceiling the
process exits (`none`); otherwise the attempt counter is bumped, `connect`
is scheduled after the current delay (the returned `ℚ`), and the delay is
then multiplied by 1.5 and capped at 60000. -/
def handleReconnect (st : MonitorState) : Option (ℚ × MonitorState) :=
  if maxReconnectAttempts ≤ st.reconnectAttempts then none
  else
    some (st.reconnectDelay,
      { st with reconnectAttempts := st.reconnectAttempts + 1
              , reconnectDelay := backoffStep st.reconnectDelay })

/-- Embeds the `ws.onopen` handler of `connect()`: the connected flag is
set, the attempt counter and delay return to their floor values, and
`subscribeToLogs()` runs on the (now open) socket. -/
def onOpen (st : MonitorState) : MonitorState × List SubRequest :=
  let st1 := { st with isConnected := true, reconnectAttempts := 0, reconnectDelay := 5000 }
  (st1, subscribeToLogs true st1.trackedWallets)

/-- The delay scheduled before the `k`-th consecutive reconnect attempt
(0-based), obtained by iterating the `handleReconnect` update from the
initial 5000 ms. -/
def delayAfter : Nat → ℚ
  | 0 => 5000
  | k + 1 => backoffStep (delayAfter k)

/-- A full cache of 1000 distinct signatures, for the C3 witness. -/
def bigState : MonitorState :=
  { initialState with processedTransactions := (List.range 1000).map toString }

/-- A well-formed notification carrying a fresh signature, for the C3
witness. -/
def evictEntry : Option LogEntry :=
  some { context := some { slot := some 7 }
       , value := some { signature := some "sig-new", logs := some [] } }

/-- A subscription ack frame `{id, result}`. -/
def ackMsg (i r : Nat) : WsMessage :=
  { id := some i, result := some r, error := none, method := none, params := none }

/-- A base-58 token that also contains the classifier keyword `swap`
(`s`, `w`, `a`, `p` are all base-58 characters). -/
def swapAddr : List Char := "swap".toList ++ List.replicate 32 'A'

/-- A monitor state already tracking `swapAddr`. -/
def trackedState : MonitorState := { initialState with trackedWallets := [swapAddr] }

/-- A notification whose only log line is `swapAddr`. -/
def swapEntry : Option LogEntry :=
  some { context := some { slot := some 123 }
       , value := some { signature := some "sigA", logs := some [swapAddr] } }

lemma leadsWith_iff (nd hay : List Char) :
    leadsWith nd hay = true ↔ ∃ post, hay = nd ++ post := by
  induction nd generalizing hay with
  | nil => simp [leadsWith]
  | cons a as ih =>
    cases hay with
    | nil => simp [leadsWith]
    | cons b bs =>
      simp only [leadsWith, Bool.and_eq_true, beq_iff_eq, ih, List.cons_append,
        List.cons.injEq]
      constructor
      · rintro ⟨rfl, post, rfl⟩
        exact ⟨post, rfl, rfl⟩
      · rintro ⟨post, rfl, rfl⟩
        exact ⟨rfl, post, rfl⟩

lemma hasSubstr_iff (hay nd : List Char) :
    hasSubstr hay nd = true ↔ IsSubstrOf nd hay := by
  unfold IsSubstrOf
  induction hay with
  | nil =>
    simp only [hasSubstr, leadsWith_iff]
    constructor
    · rintro ⟨post, h⟩
      exact ⟨[], post, by simpa using h⟩
    · rintro ⟨pre, post, h⟩
      rcases List.append_eq_nil.mp ((List.append_assoc _ _ _ ▸ h).symm) with ⟨h1, h2⟩
      rcases List.append_eq_nil.mp h2 with ⟨h3, h4⟩
      exact ⟨[], by simp [h3]⟩
  | cons c rest ih =>
    simp only [hasSubstr, Bool.or_eq_true, leadsWith_iff, ih]
    constructor
    · rintro (⟨post, h⟩ | ⟨pre, post, h⟩)
      · exact ⟨[], post, by simpa using h⟩
      · exact ⟨c :: pre, post, by simp [h]⟩
    · rintro ⟨pre, post, h⟩
      cases pre with
      | nil => exact Or.inl ⟨post, by simpa using h⟩
      | cons p ps =>
        simp only [List.cons_append, List.cons.injEq] at h
        exact Or.inr ⟨ps, post, h.2⟩

lemma chunksOfRunAux_fuel :
    ∀ (f f' : Nat) (r : List Char), r.length ≤ f → r.length ≤ f' →
      chunksOfRunAux f r = chunksOfRunAux f' r := by
  intro f
  induction f with
  | zero =>
    intro f' r hf hf'
    have hr : r = [] := List.length_eq_zero.mp (Nat.le_zero.mp hf)
    subst hr
    cases f' with
    | zero => rfl
    | succ g => simp [chunksOfRunAux]
  | succ f ih =>
    intro f' r hf hf'
    cases f' with
    | zero =>
      have hr : r = [] := List.length_eq_zero.mp (Nat.le_zero.mp hf')
      subst hr
      simp [chunksOfRunAux]
    | succ g =>
      simp only [chunksOfRunAux]
      by_cases h32 : 32 ≤ r.length
      · rw [if_pos h32, if_pos h32]
        have hd : (r.drop 44).length ≤ f := by
          rw [List.length_drop]; omega
        have hd' : (r.drop 44).length ≤ g := by
          rw [List.length_drop]; omega
        rw [ih g (r.drop 44) hd hd']
      · rw [if_neg h32, if_neg h32]

lemma splitRunsAux_fuel :
    ∀ (f f' : Nat) (l : List Char), l.length ≤ f → l.length ≤ f' →
      splitRunsAux f l = splitRunsAux f' l := by
  intro f
  induction f with
  | zero =>
    intro f' l hf hf'
    have hl : l = [] := List.length_eq_zero.mp (Nat.le_zero.mp hf)
    subst hl
    cases f' with
    | zero => rfl
    | succ g => rfl
  | succ f ih =>
    intro f' l hf hf'
    cases l with
    | nil => cases f' with
      | zero => rfl
      | succ g => rfl
    | cons c cs =>
      cases f' with
      | zero => exact absurd hf' (by simp)
      | succ g =>
        have hcs : cs.length ≤ f := by simpa using hf
        have hcs' : cs.length ≤ g := by simpa using hf'
        simp only [splitRunsAux]
        by_cases hc : isB58 c = true
        · rw [if_pos hc, if_pos hc]
          have hdrop : (cs.dropWhile isB58).length ≤ cs.length :=
            (@List.dropWhile_sublist Char cs isB58).length_le
          rw [ih g (cs.dropWhile isB58) (le_trans hdrop hcs) (le_trans hdrop hcs')]
        · rw [if_neg hc, if_neg hc, ih g cs hcs hcs']

lemma chunksOfRunAux_eq (f : Nat) (r : List Char) (hf : r.length ≤ f) :
    chunksOfRunAux f r =
      if 32 ≤ r.length then r.take 44 :: chunksOfRun (r.drop 44) else [] := by
  cases f with
  | zero =>
    have hr : r = [] := List.length_eq_zero.mp (Nat.le_zero.mp hf)
    subst hr
    simp [chunksOfRunAux]
  | succ g =>
    simp only [chunksOfRunAux]
    by_cases h32 : 32 ≤ r.length
    · rw [if_pos h32, if_pos h32]
      unfold chunksOfRun
      rw [chunksOfRunAux_fuel g (r.drop 44).length (r.drop 44)
        (by rw [List.length_drop]; omega) (Nat.le_refl _)]
    · rw [if_neg h32, if_neg h32]

lemma chunksOfRun_eq (run : List Char) :
    chunksOfRun run =
      if 32 ≤ run.length then run.take 44 :: chunksOfRun (run.drop 44) else [] :=
  chunksOfRunAux_eq run.length run (Nat.le_refl _)

lemma splitRunsAux_eq (f : Nat) (l : List Char) (hf : l.length ≤ f) :
    splitRunsAux f l =
      match l with
      | [] => []
      | c :: cs =>
        if isB58 c then
          (c :: cs.takeWhile isB58) :: splitRuns (cs.dropWhile isB58)
        else
          splitRuns cs := by
  cases l with
  | nil => cases f with
    | zero => rfl
    | succ g => rfl
  | cons c cs =>
    cases f with
    | zero => exact absurd hf (by simp)
    | succ g =>
      have hcs : cs.length ≤ g := by simpa using hf
      simp only [splitRunsAux]
      by_cases hc : isB58 c = true
      · rw [if_pos hc, if_pos hc]
        have hdrop : (cs.dropWhile isB58).length ≤ cs.length :=
          (@List.dropWhile_sublist Char cs isB58).length_le
        unfold splitRuns
        rw [splitRunsAux_fuel g (cs.dropWhile isB58).length (cs.dropWhile isB58)
          (le_trans hdrop hcs) (Nat.le_refl _)]
      · rw [if_neg hc, if_neg hc]
        unfold splitRuns
        exact splitRunsAux_fuel g cs.length cs hcs (Nat.le_refl _)

lemma splitRuns_nil : splitRuns [] = [] := rfl

lemma splitRuns_cons (c : Char) (cs : List Char) :
    splitRuns (c :: cs) =
      if isB58 c then
        (c :: cs.takeWhile isB58) :: splitRuns (cs.dropWhile isB58)
      else
        splitRuns cs :=
  splitRunsAux_eq (c :: cs).length (c :: cs) (Nat.le_refl _)

lemma head_dropWhile_false (p : Char → Bool) :
    ∀ (l : List Char) (d : Char), (l.dropWhile p).head? = some d → p d = false := by
  intro l
  induction l with
  | nil => intro d h; simp at h
  | cons c cs ih =>
    intro d h
    rw [List.dropWhile_cons] at h
    by_cases hc : p c = true
    · exact ih d (by simpa [hc] using h)
    · rw [if_neg hc] at h
      have hcd : c = d := by simpa using h
      subst hcd
      simpa using hc

lemma lastQ_append_of_ne_nil {a b : List Char} (h : b ≠ []) :
    (a ++ b).getLast? = b.getLast? := by
  cases hb : b.getLast? with
  | none => exact absurd (List.getLast?_eq_none_iff.mp hb) h
  | some x => rw [List.getLast?_append, hb]; rfl

lemma takeWhile_append_all {p : Char → Bool} {a : List Char} (t : List Char)
    (h : ∀ x ∈ a, p x = true) :
    (a ++ t).takeWhile p = a ++ t.takeWhile p := by
  induction a with
  | nil => simp
  | cons c cs ih =>
    have hc : p c = true := h c (by simp)
    simp only [List.cons_append]
    rw [List.takeWhile_cons, if_pos hc, ih fun x hx => h x (List.mem_cons_of_mem _ hx)]

lemma maximalRun_nil (a : List Char) : ¬ MaximalRun a [] := by
  rintro ⟨hne, -, pre, post, hdec, -, -⟩
  have h := hdec.symm
  rw [List.append_assoc] at h
  rcases List.append_eq_nil.mp h with ⟨-, h2⟩
  exact hne (List.append_eq_nil.mp h2).1

lemma maximalRun_cons_not {c : Char} (cs : List Char) (hc : isB58 c = false)
    (a : List Char) : MaximalRun a (c :: cs) ↔ MaximalRun a cs := by
  constructor
  · rintro ⟨hne, hall, pre, post, hdec, hpre, hpost⟩
    cases pre with
    | nil =>
      cases a with
      | nil => exact absurd rfl hne
      | cons a0 a' =>
        simp only [List.nil_append, List.cons_append, List.cons.injEq] at hdec
        exact absurd (hall a0 (by simp)) (by rw [hdec.1] at hc; simp [hc])
    | cons p ps =>
      simp only [List.cons_append, List.cons.injEq] at hdec
      refine ⟨hne, hall, ps, post, hdec.2, ?_, hpost⟩
      intro d hd
      apply hpre
      cases ps with
      | nil => simp at hd
      | cons q qs => rw [List.getLast?_cons_cons]; exact hd
  · rintro ⟨hne, hall, pre, post, hdec, hpre, hpost⟩
    refine ⟨hne, hall, c :: pre, post, by simp [hdec], ?_, hpost⟩
    intro d hd
    cases pre with
    | nil =>
      simp only [List.getLast?_singleton, Option.some.injEq] at hd
      subst hd; exact hc
    | cons q qs =>
      rw [List.getLast?_cons_cons] at hd
      exact hpre d hd

lemma mem_splitRuns_aux :
    ∀ (n : Nat) (l : List Char), l.length ≤ n →
      ∀ a, (a ∈ splitRuns l ↔ MaximalRun a l) := by
  intro n
  induction n with
  | zero =>
    intro l hl a
    have : l = [] := List.length_eq_zero.mp (Nat.le_zero.mp hl)
    subst this
    rw [splitRuns_nil]; simp only [List.not_mem_nil, false_iff]
    exact maximalRun_nil a
  | succ n ih =>
    intro l hl a
    cases l with
    | nil =>
      rw [splitRuns_nil]; simp only [List.not_mem_nil, false_iff]
      exact maximalRun_nil a
    | cons c cs =>
      by_cases hc : isB58 c = true
      · -- the line starts a base-58 run `R`; the remainder is `rest`
        have hsplit : splitRuns (c :: cs) =
            (c :: cs.takeWhile isB58) :: splitRuns (cs.dropWhile isB58) := by
          rw [splitRuns_cons, if_pos hc]
        set R : List Char := c :: cs.takeWhile isB58 with hR
        set rest : List Char := cs.dropWhile isB58 with hrest
        have hl2 : c :: cs = R ++ rest := by
          rw [hR, hrest, List.cons_append, List.takeWhile_append_dropWhile]
        have hRalpha : ∀ x ∈ R, isB58 x = true := by
          intro x hx
          rcases List.mem_cons.mp hx with rfl | hx'
          · exact hc
          · exact List.mem_takeWhile_imp hx'
        have hrestlen : rest.length ≤ n := by
          have h1 : rest.length ≤ cs.length :=
            (@List.dropWhile_sublist Char cs isB58).length_le
          have h2 : cs.length ≤ n := by simpa using hl
          omega
        have hresthead : ∀ d, rest.head? = some d → isB58 d = false :=
          fun d hd => head_dropWhile_false isB58 cs d hd
        rw [hsplit]
        constructor
        · intro ha
          rcases List.mem_cons.mp ha with rfl | ha'
          · refine ⟨by simp [hR], hRalpha, [], rest, by simpa using hl2, ?_, hresthead⟩
            intro d hd; simp at hd
          · obtain ⟨hne, hall, pre', post', hdec', hpre', hpost'⟩ :=
              (ih rest hrestlen a).mp ha'
            have hpre'ne : pre' ≠ [] := by
              intro h0
              subst h0
              cases a with
              | nil => exact hne rfl
              | cons a0 a'' =>
                simp only [List.nil_append, List.cons_append] at hdec'
                have : rest.head? = some a0 := by rw [hdec']; rfl
                exact absurd (hall a0 (by simp)) (by simp [hresthead a0 this])
            refine ⟨hne, hall, R ++ pre', post', ?_, ?_, hpost'⟩
            · rw [hl2, hdec']; simp [List.append_assoc]
            · intro d hd
              rw [lastQ_append_of_ne_nil hpre'ne] at hd
              exact hpre' d hd
        · rintro ⟨hne, hall, pre, post, hdec, hpre, hpost⟩
          by_cases hprenil : pre = []
          · -- the token starts at the head of the line, so it is exactly `R`
            subst hprenil
            simp only [List.nil_append] at hdec
            have hpostTW : post.takeWhile isB58 = [] := by
              cases post with
              | nil => rfl
              | cons d ds =>
                rw [List.takeWhile_cons, hpost d rfl]
                rfl
            have haR : a = R := by
              have h1 : (c :: cs).takeWhile isB58 = R := by
                rw [List.takeWhile_cons, if_pos hc]
              have h2 : (c :: cs).takeWhile isB58 = a := by
                rw [hdec, takeWhile_append_all post hall, hpostTW, List.append_nil]
              rw [← h2, h1]
            rw [haR]
            exact List.mem_cons_self _ _
          · -- the token starts strictly after `R`; move into `rest`
            obtain ⟨d0, hd0⟩ : ∃ d, pre.getLast? = some d := by
              cases hp : pre.getLast? with
              | none => exact absurd (List.getLast?_eq_none_iff.mp hp) hprenil
              | some x => exact ⟨x, rfl⟩
            have hd0mem : d0 ∈ pre := List.mem_of_mem_getLast? hd0
            have hd0f : isB58 d0 = false := hpre d0 hd0
            have hlen : R.length < pre.length := by
              by_contra hle
              push_neg at hle
              have h1 : List.take pre.length (c :: cs) = pre := by
                rw [hdec, List.append_assoc, List.take_left]
              have h2 : List.take pre.length (c :: cs) = List.take pre.length R := by
                rw [hl2, List.take_append_of_le_length hle]
              have hpretake : pre = List.take pre.length R := h1.symm.trans h2
              have hd0take : d0 ∈ List.take pre.length R := hpretake ▸ hd0mem
              have hd0R : d0 ∈ R := List.mem_of_mem_take hd0take
              rw [hRalpha d0 hd0R] at hd0f
              exact Bool.true_eq_false.mp hd0f
            set pre2 : List Char := pre.drop R.length with hpre2
            have hpre2ne : pre2 ≠ [] := by
              rw [hpre2, ← List.length_pos]
              rw [List.length_drop]
              omega
            have hpreRpre2 : pre = R ++ pre2 := by
              have h1 : List.take R.length (c :: cs) = R := by
                rw [hl2, List.take_left]
              have h2 : List.take R.length (c :: cs) = List.take R.length pre := by
                rw [hdec, List.append_assoc,
                  List.take_append_of_le_length (Nat.le_of_lt hlen)]
              have h3 : List.take R.length pre = R := by rw [← h2, h1]
              have h4 := (List.take_append_drop R.length pre).symm
              rw [h3] at h4
              rw [hpre2]
              exact h4
            have hrestdec : rest = pre2 ++ a ++ post := by
              refine @List.append_cancel_left Char R _ _ ?_
              rw [← hl2, hdec, hpreRpre2]
              simp [List.append_assoc]
            have : MaximalRun a rest := by
              refine ⟨hne, hall, pre2, post, hrestdec, ?_, hpost⟩
              intro d hd
              apply hpre
              rw [hpreRpre2, lastQ_append_of_ne_nil hpre2ne]
              exact hd
            exact List.mem_cons_of_mem _ ((ih rest hrestlen a).mpr this)
      · -- the head character is outside the class: drop it on both sides
        have hcf : isB58 c = false := by simpa using hc
        have hsplit : splitRuns (c :: cs) = splitRuns cs := by
          rw [splitRuns_cons, if_neg (by simp [hcf])]
        rw [hsplit, maximalRun_cons_not cs hcf a]
        exact ih cs (by simpa using hl) a

/-- A token is a run the splitter produces exactly when it is a maximal
base-58 substring of the line. -/
lemma mem_splitRuns (l a : List Char) : a ∈ splitRuns l ↔ MaximalRun a l :=
  mem_splitRuns_aux l.length l (Nat.le_refl _) a

/-- C7: the classifier `isDEXTransaction` (the spec's `isRelevant`) returns
true iff at least one log line contains one of the six configured DEX
program identifiers, or one of the keywords `swap`, `trade`, `exchange`,
as a substring; on a list containing none of these — in particular the
empty list — it returns false. -/
theorem c7_classifier (logs : List (List Char)) :
    (isDEXTransaction logs = true ↔
      ∃ l ∈ logs,
        (∃ p ∈ ACTIVE_DEX_PROGRAMS, IsSubstrOf p l) ∨
        IsSubstrOf swapKw l ∨ IsSubstrOf tradeKw l ∨ IsSubstrOf exchangeKw l) ∧
    isDEXTransaction [] = false := by
  constructor
  · simp only [isDEXTransaction, List.any_eq_true, Bool.or_eq_true, hasSubstr_iff]
    exact exists_congr fun l => and_congr_right fun _ => by rw [or_assoc, or_assoc]
  · rfl

lemma chunksOfRun_of_le44 (r : List Char) (h : r.length ≤ 44) :
    chunksOfRun r = if 32 ≤ r.length then [r] else [] := by
  rw [chunksOfRun_eq]
  by_cases h32 : 32 ≤ r.length
  · rw [if_pos h32, if_pos h32, List.take_of_length_le h, List.drop_eq_nil_of_le h]
    rw [chunksOfRun_eq]
    norm_num
  · rw [if_neg h32, if_neg h32]

lemma flatMap_chunks_of_le44 (rs : List (List Char)) (h : ∀ r ∈ rs, r.length ≤ 44) :
    rs.flatMap chunksOfRun = rs.filter fun r => decide (32 ≤ r.length) := by
  induction rs with
  | nil => rfl
  | cons r rs ih =>
    rw [List.flatMap_cons, chunksOfRun_of_le44 r (h r (List.mem_cons_self _ _)),
      List.filter_cons, ih fun x hx => h x (List.mem_cons_of_mem _ hx)]
    by_cases h32 : 32 ≤ r.length
    · rw [if_pos h32, if_pos (by simpa using h32)]
      rfl
    · rw [if_neg h32, if_neg (by simpa using h32)]
      rfl

lemma lineMatches_of_le44 (l : List Char) (h : ∀ r ∈ splitRuns l, r.length ≤ 44) :
    lineMatches l = (splitRuns l).filter fun r => decide (32 ≤ r.length) :=
  flatMap_chunks_of_le44 (splitRuns l) h

lemma mem_setInsert {s : List (List Char)} {a x : List Char} :
    x ∈ setInsert s a ↔ x ∈ s ∨ x = a := by
  unfold setInsert
  by_cases h : a ∈ s
  · rw [if_pos h]
    constructor
    · exact Or.inl
    · rintro (hx | rfl)
      · exact hx
      · exact h
  · rw [if_neg h]
    simp

lemma nodup_setInsert {s : List (List Char)} (a : List Char) (hs : s.Nodup) :
    (setInsert s a).Nodup := by
  unfold setInsert
  by_cases h : a ∈ s
  · rw [if_pos h]; exact hs
  · rw [if_neg h]
    rw [List.nodup_append]
    exact ⟨hs, List.nodup_singleton a,
      fun x hx hxa => h ((List.mem_singleton.mp hxa) ▸ hx)⟩

lemma addMatches_cons (m : List Char) (t ms : List (List Char)) :
    addMatches t (m :: ms) =
      addMatches (if 32 ≤ m.length && m.length ≤ 44 then setInsert t m else t) ms := rfl

lemma mem_addMatches :
    ∀ (ms s : List (List Char)) (x : List Char),
      x ∈ addMatches s ms ↔
        x ∈ s ∨ (x ∈ ms ∧ (32 ≤ x.length && x.length ≤ 44) = true) := by
  intro ms
  induction ms with
  | nil =>
    intro s x
    simp [addMatches]
  | cons m ms ih =>
    intro s x
    rw [addMatches_cons]
    by_cases hm : (32 ≤ m.length && m.length ≤ 44) = true
    · rw [if_pos hm, ih, mem_setInsert]
      constructor
      · rintro ((hx | rfl) | ⟨hxm, hok⟩)
        · exact Or.inl hx
        · exact Or.inr ⟨List.mem_cons_self _ _, hm⟩
        · exact Or.inr ⟨List.mem_cons_of_mem _ hxm, hok⟩
      · rintro (hx | ⟨hxm, hok⟩)
        · exact Or.inl (Or.inl hx)
        · rcases List.mem_cons.mp hxm with rfl | hxm'
          · exact Or.inl (Or.inr rfl)
          · exact Or.inr ⟨hxm', hok⟩
    · rw [if_neg hm, ih]
      constructor
      · rintro (hx | ⟨hxm, hok⟩)
        · exact Or.inl hx
        · exact Or.inr ⟨List.mem_cons_of_mem _ hxm, hok⟩
      · rintro (hx | ⟨hxm, hok⟩)
        · exact Or.inl hx
        · rcases List.mem_cons.mp hxm with rfl | hxm'
          · exact absurd hok hm
          · exact Or.inr ⟨hxm', hok⟩

lemma nodup_addMatches :
    ∀ (ms s : List (List Char)), s.Nodup → (addMatches s ms).Nodup := by
  intro ms
  induction ms with
  | nil => intro s hs; exact hs
  | cons m ms ih =>
    intro s hs
    rw [addMatches_cons]
    by_cases hm : (32 ≤ m.length && m.length ≤ 44) = true
    · rw [if_pos hm]; exact ih _ (nodup_setInsert m hs)
    · rw [if_neg hm]; exact ih _ hs

lemma mem_extract_aux :
    ∀ (logs : List (List Char)) (s : List (List Char)) (x : List Char),
      x ∈ logs.foldl (fun acc log => addMatches acc (lineMatches log)) s ↔
        x ∈ s ∨ ∃ l ∈ logs, x ∈ lineMatches l ∧ (32 ≤ x.length && x.length ≤ 44) = true := by
  intro logs
  induction logs with
  | nil =>
    intro s x
    simp
  | cons l logs ih =>
    intro s x
    rw [List.foldl_cons, ih, mem_addMatches]
    constructor
    · rintro ((hx | ⟨hxl, hok⟩) | ⟨l2, hl2, hx, hok⟩)
      · exact Or.inl hx
      · exact Or.inr ⟨l, List.mem_cons_self _ _, hxl, hok⟩
      · exact Or.inr ⟨l2, List.mem_cons_of_mem _ hl2, hx, hok⟩
    · rintro (hx | ⟨l2, hl2, hx, hok⟩)
      · exact Or.inl (Or.inl hx)
      · rcases List.mem_cons.mp hl2 with rfl | hl3
        · exact Or.inl (Or.inr ⟨hx, hok⟩)
        · exact Or.inr ⟨l2, hl3, hx, hok⟩

lemma mem_extractWalletAddresses (logs : List (List Char)) (x : List Char) :
    x ∈ extractWalletAddresses logs ↔
      ∃ l ∈ logs, x ∈ lineMatches l ∧ (32 ≤ x.length && x.length ≤ 44) = true := by
  unfold extractWalletAddresses
  rw [mem_extract_aux]
  simp

lemma nodup_extract_aux :
    ∀ (logs : List (List Char)) (s : List (List Char)), s.Nodup →
      (logs.foldl (fun acc log => addMatches acc (lineMatches log)) s).Nodup := by
  intro logs
  induction logs with
  | nil => intro s hs; exact hs
  | cons l logs ih =>
    intro s hs
    rw [List.foldl_cons]
    exact ih _ (nodup_addMatches _ _ hs)

lemma extract_nodup (logs : List (List Char)) : (extractWalletAddresses logs).Nodup :=
  nodup_extract_aux logs [] List.nodup_nil

/-- C8 (amended): when no maximal base-58 run of the input exceeds 44
characters, `extractWalletAddresses` returns exactly the maximal base-58
substrings of length between 32 and 44, each exactly once.  (Without the
length restriction the claim fails: a longer run is split greedily by the
regex, see the counterexample.) -/
theorem c8_extractor_amended (logs : List (List Char))
    (h : ∀ l ∈ logs, ∀ r ∈ splitRuns l, r.length ≤ 44) :
    (extractWalletAddresses logs).Nodup ∧
    ∀ x, x ∈ extractWalletAddresses logs ↔
      ((∃ l ∈ logs, MaximalRun x l) ∧ 32 ≤ x.length ∧ x.length ≤ 44) := by
  refine ⟨extract_nodup logs, fun x => ?_⟩
  rw [mem_extractWalletAddresses]
  constructor
  · rintro ⟨l, hl, hx, hok⟩
    rw [lineMatches_of_le44 l (h l hl)] at hx
    have hx2 := List.mem_filter.mp hx
    have hmax := (mem_splitRuns l x).mp hx2.1
    have hokn : 32 ≤ x.length ∧ x.length ≤ 44 := by simpa using hok
    exact ⟨⟨l, hl, hmax⟩, hokn⟩
  · rintro ⟨⟨l, hl, hmax⟩, h32, h44⟩
    refine ⟨l, hl, ?_, by simp [h32, h44]⟩
    rw [lineMatches_of_le44 l (h l hl)]
    exact List.mem_filter.mpr ⟨(mem_splitRuns l x).mpr hmax, by simpa using h32⟩

/-- Witness for `c8_extractor_amended` at a concrete input. -/
theorem c8_extractor_amended_witness :
    (extractWalletAddresses [wLine]).Nodup ∧
    ∀ x, x ∈ extractWalletAddresses [wLine] ↔
      ((∃ l ∈ [wLine], MaximalRun x l) ∧ 32 ≤ x.length ∧ x.length ≤ 44) :=
  c8_extractor_amended [wLine] (by decide)

/-- C8 counterexample: on a line that is a single base-58 run of 45
characters the extractor returns the 44-character greedy regex match, a
token that is not a maximal base-58 substring of the line (the unique
maximal run has length 45, outside [32,44], so the claim as stated would
require the empty result). -/
theorem c8_counterexample :
    extractWalletAddresses [List.replicate 45 '1'] = [List.replicate 44 '1'] ∧
    ¬ MaximalRun (List.replicate 44 '1') (List.replicate 45 '1') := by
  constructor
  · decide
  · rintro ⟨-, -, pre, post, hdec, hpre, hpost⟩
    have hlen := congrArg List.length hdec
    simp only [List.length_append, List.length_replicate] at hlen
    cases hgl : pre.getLast? with
    | some d =>
      have hdm : d ∈ pre := List.mem_of_mem_getLast? hgl
      have hd1 : d = '1' := by
        have : d ∈ List.replicate 45 '1' := by
          rw [hdec]
          exact List.mem_append_left _ (List.mem_append_left _ hdm)
        exact List.eq_of_mem_replicate this
      have hf := hpre d hgl
      rw [hd1] at hf
      exact absurd hf (by decide)
    | none =>
      have hpe : pre = [] := List.getLast?_eq_none_iff.mp hgl
      subst hpe
      cases hh : post.head? with
      | some d =>
        have hdm : d ∈ post := List.mem_of_mem_head? hh
        have hd1 : d = '1' := by
          have : d ∈ List.replicate 45 '1' := by
            rw [hdec]
            exact List.mem_append_right _ hdm
          exact List.eq_of_mem_replicate this
        have hf := hpost d hh
        rw [hd1] at hf
        exact absurd hf (by decide)
      | none =>
        have hpo : post = [] := List.head?_eq_none_iff.mp hh
        subst hpo
        simp at hlen

lemma subscribeBatch_length :
    ∀ (ts : List (List Char)) (firstId : Nat),
      (subscribeBatch firstId ts).length = ts.length := by
  intro ts
  induction ts with
  | nil => intro f; rfl
  | cons t ts ih =>
    intro f
    simp only [subscribeBatch, List.length_cons, ih]

lemma subscribeBatch_ids :
    ∀ (ts : List (List Char)) (firstId : Nat),
      (subscribeBatch firstId ts).map SubRequest.id = List.range' firstId ts.length := by
  intro ts
  induction ts with
  | nil => intro f; rfl
  | cons t ts ih =>
    intro f
    simp only [subscribeBatch, List.map_cons, List.length_cons, List.range'_succ, ih]
    rfl

lemma subscribeBatch_mentions :
    ∀ (ts : List (List Char)) (firstId : Nat) (r : SubRequest),
      r ∈ subscribeBatch firstId ts → r.mentions.length = 1 := by
  intro ts
  induction ts with
  | nil =>
    intro f r hr
    simp [subscribeBatch] at hr
  | cons t ts ih =>
    intro f r hr
    rcases List.mem_cons.mp hr with rfl | hr2
    · rfl
    · exact ih (f + 1) r hr2

lemma subscribeToLogs_open (w : List (List Char)) :
    subscribeToLogs true w =
      subscribeBatch 1 ACTIVE_DEX_PROGRAMS ++ subscribeBatch 7 w := by
  unfold subscribeToLogs
  cases w with
  | nil => rfl
  | cons a as =>
    rw [if_pos rfl, if_pos (by simp), show ACTIVE_DEX_PROGRAMS.length = 6 by decide]

/-- C1: with the socket open, a single `subscribeToLogs()` invocation over
the six static DEX programs and the current tracked-wallet list sends
exactly `6 + W` subscribe requests, each carrying exactly one topic in its
`mentions` array, with pairwise distinct request ids. -/
theorem c1_subscribeAll (wallets : List (List Char)) :
    (subscribeToLogs true wallets).length = 6 + wallets.length ∧
    (∀ r ∈ subscribeToLogs true wallets, r.mentions.length = 1) ∧
    ((subscribeToLogs true wallets).map SubRequest.id).Nodup := by
  rw [subscribeToLogs_open]
  refine ⟨?_, ?_, ?_⟩
  · rw [List.length_append, subscribeBatch_length, subscribeBatch_length,
      show ACTIVE_DEX_PROGRAMS.length = 6 by decide]
  · intro r hr
    rcases List.mem_append.mp hr with h | h
    · exact subscribeBatch_mentions _ _ r h
    · exact subscribeBatch_mentions _ _ r h
  · rw [List.map_append, subscribeBatch_ids, subscribeBatch_ids]
    rw [show ACTIVE_DEX_PROGRAMS.length = 6 from rfl,
      show (7 : Nat) = 1 + 1 * 6 by norm_num, List.range'_append]
    exact List.nodup_range' 1 (wallets.length + 6)

/-- C6 counterexample: request ids restart at 1 on every
`subscribeToLogs()` invocation, so the ids sent during one connection
epoch by the initial subscription followed by a `refreshTrackedWallets()`
resubscription (still connected) contain duplicates — id 1 is reused. -/
theorem c6_counterexample :
    ¬ (((subscribeToLogs true [] ++ refreshTrackedWallets true []).map
        SubRequest.id).Nodup) := by decide

/-- C6 (amended): within a single `subscribeToLogs()` invocation the
request ids are exactly `1, 2, ..., 6 + W`: strictly increasing, hence
pairwise distinct; but every invocation restarts from 1, so ids recur
across invocations of the same connection epoch. -/
theorem c6_amended (wallets : List (List Char)) :
    ((subscribeToLogs true wallets).map SubRequest.id) =
        List.range' 1 (6 + wallets.length) ∧
    List.Pairwise (· < ·) ((subscribeToLogs true wallets).map SubRequest.id) ∧
    ((subscribeToLogs true wallets).map SubRequest.id).Nodup := by
  have hids : ((subscribeToLogs true wallets).map SubRequest.id) =
      List.range' 1 (6 + wallets.length) := by
    rw [subscribeToLogs_open, List.map_append, subscribeBatch_ids, subscribeBatch_ids]
    rw [show ACTIVE_DEX_PROGRAMS.length = 6 from rfl,
      show (7 : Nat) = 1 + 1 * 6 by norm_num, List.range'_append]
    rw [Nat.add_comm wallets.length 6]
  refine ⟨hids, ?_, ?_⟩
  · rw [hids]
    exact List.pairwise_lt_range' 1 (6 + wallets.length)
  · rw [hids]
    exact List.nodup_range' 1 (6 + wallets.length)

lemma handleLog_cache (st : MonitorState) (e : Option LogEntry) (s : String)
    (hs : sigOf e = some s) (hmem : s ∉ st.processedTransactions) :
    (handleLogNotification st e).1.processedTransactions =
      (if 1000 < (st.processedTransactions ++ [s]).length then
        (st.processedTransactions ++ [s]).drop
          ((st.processedTransactions ++ [s]).length - 500)
      else st.processedTransactions ++ [s]) := by
  simp only [handleLogNotification, hs]
  rw [if_neg hmem]
  cases hl : logsOf e with
  | none => rfl
  | some ls =>
    by_cases hdex : isDEXTransaction ls = true
    · simp [hdex]
    · simp [hdex]

/-- C10: a notification whose payload misses `value` or `value.signature`
is only logged: `handleLogNotification` leaves the dedup cache (and all
other state) unchanged and performs no classification, extraction or
store write. -/
theorem c10_malformed (st : MonitorState) (e : Option LogEntry)
    (h : e = none ∨ ∃ le, e = some le ∧
        (le.value = none ∨ ∃ v, le.value = some v ∧ v.signature = none)) :
    handleLogNotification st e = (st, []) := by
  have hs : sigOf e = none := by
    rcases h with rfl | ⟨le, rfl, h2⟩
    · rfl
    · rcases h2 with h3 | ⟨v, h3, h4⟩
      · simp [sigOf, h3]
      · simp [sigOf, h3, h4]
  simp [handleLogNotification, hs]

/-- Witness for `c10_malformed`: the absent-payload notification. -/
theorem c10_malformed_witness :
    handleLogNotification initialState none = (initialState, []) :=
  c10_malformed initialState none (Or.inl rfl)

/-- C4: a notification whose signature is already in the dedup cache
produces no state change and no classifier/extractor/sink effect; a novel
signature (with logs present) runs the classifier, and when it matches,
the extraction and one candidate upsert per extracted address. -/
theorem c4_dedup_gate (st : MonitorState) (e : Option LogEntry) (s : String)
    (ls : List (List Char)) :
    ((sigOf e = some s ∧ s ∈ st.processedTransactions) →
        handleLogNotification st e = (st, [])) ∧
    ((sigOf e = some s ∧ s ∉ st.processedTransactions ∧ logsOf e = some ls) →
        (handleLogNotification st e).2 =
          Effect.classified (isDEXTransaction ls) ::
            (if isDEXTransaction ls then
              (extractWalletAddresses ls).map fun a =>
                Effect.upsertCandidate (mkCandidate a s (slotOf e))
            else [])) := by
  constructor
  · rintro ⟨hs, hmem⟩
    simp [handleLogNotification, hs, hmem]
  · rintro ⟨hs, hmem, hls⟩
    simp only [handleLogNotification, hs, hls]
    rw [if_neg hmem]
    by_cases hdex : isDEXTransaction ls = true
    · simp [hdex]
    · simp [hdex, Bool.eq_false_iff.mpr hdex]

/-- C3: one `handleLogNotification` step keeps the dedup cache at no more
than 1000 entries, and the insertion that would reach 1001 cuts it to
exactly the 500 most recently inserted signatures (the last 500 of the
insertion-ordered cache, the new signature included). -/
theorem c3_dedup_cache (st : MonitorState) (e : Option LogEntry)
    (h : st.processedTransactions.length ≤ 1000) :
    (handleLogNotification st e).1.processedTransactions.length ≤ 1000 ∧
    (∀ s, sigOf e = some s → s ∉ st.processedTransactions →
      st.processedTransactions.length = 1000 →
      (handleLogNotification st e).1.processedTransactions =
        (st.processedTransactions ++ [s]).drop 501 ∧
      (handleLogNotification st e).1.processedTransactions.length = 500) := by
  constructor
  · cases hs : sigOf e with
    | none => simpa [handleLogNotification, hs] using h
    | some s =>
      by_cases hmem : s ∈ st.processedTransactions
      · simpa [handleLogNotification, hs, hmem] using h
      · rw [handleLog_cache st e s hs hmem]
        by_cases hbig : 1000 < (st.processedTransactions ++ [s]).length
        · rw [if_pos hbig, List.length_drop]
          omega
        · rw [if_neg hbig]
          omega
  · intro s hs hmem hlen
    have hcache := handleLog_cache st e s hs hmem
    have hlen1 : (st.processedTransactions ++ [s]).length = 1001 := by
      simp [hlen]
    refine ⟨?_, ?_⟩
    · rw [hcache, if_pos (by rw [hlen1]; norm_num), hlen1]
    · rw [hcache, if_pos (by rw [hlen1]; norm_num), List.length_drop, hlen1]

/-- Witness for `c3_dedup_cache` at a cache holding 1000 entries. -/
theorem c3_dedup_cache_witness :
    (handleLogNotification bigState evictEntry).1.processedTransactions.length ≤ 1000 ∧
    (∀ s, sigOf evictEntry = some s → s ∉ bigState.processedTransactions →
      bigState.processedTransactions.length = 1000 →
      (handleLogNotification bigState evictEntry).1.processedTransactions =
        (bigState.processedTransactions ++ [s]).drop 501 ∧
      (handleLogNotification bigState evictEntry).1.processedTransactions.length = 500) :=
  c3_dedup_cache bigState evictEntry (by simp [bigState, initialState])

/-- C2 counterexample: the dispatcher keeps no request-id → topic pending
map and no topic-keyed confirmed map.  Processing an ack only adds the
bare `result` value to the `subscriptionIds` set: acks for the distinct
request ids 3 and 5 with the same result produce identical states (so the
post-state cannot record which topic was confirmed), and the post-state is
the initial state with `subscriptionIds = [42]` — nothing is keyed by
topic and nothing is removed. -/
theorem c2_counterexample :
    handleMessage initialState (ackMsg 3 42) = handleMessage initialState (ackMsg 5 42) ∧
    (handleMessage initialState (ackMsg 3 42)).1 =
      { initialState with subscriptionIds := [42] } ∧
    (handleMessage initialState (ackMsg 3 42)).2 = [] := by
  refine ⟨by decide, by decide, by decide⟩

/-- C2 (amended): after the dispatcher processes an ack (truthy `id` and
truthy `result` `n`), `n` has been added to the `subscriptionIds` set and
nothing else changed; no effect is emitted.  The code keeps no pending or
per-topic confirmed map, so nothing topic-keyed can be stated. -/
theorem c2_amended_ack (st : MonitorState) (i n : Nat) (hi : i ≠ 0) (hn : n ≠ 0)
    (er : Option String) (mth : Option String) (p : Option NotifParams) :
    handleMessage st
        { id := some i, result := some n, error := er, method := mth, params := p } =
      ({ st with subscriptionIds := setAddNat st.subscriptionIds n }, []) := by
  have h1 : truthyNat (some i) = true := by simp [truthyNat, hi]
  have h2 : truthyNat (some n) = true := by simp [truthyNat, hn]
  simp [handleMessage, h1, h2]

/-- Witness for `c2_amended_ack` at the ack `{id: 3, result: 42}`. -/
theorem c2_amended_ack_witness :
    handleMessage initialState
        { id := some 3, result := some 42, error := none, method := none, params := none } =
      ({ initialState with subscriptionIds := setAddNat initialState.subscriptionIds 42 }, []) :=
  c2_amended_ack initialState 3 42 (by decide) (by decide) none none none

/-- C5: the reconnect delay starts at 5000 ms and each scheduled reconnect
schedules the attempt after the current delay and then updates the delay
to `min (delay * 1.5) 60000`, giving 5000, 7500, 11250, 16875, 25312.5
(the value the spec displays truncated as 25312), never exceeding 60000;
the delay and the attempt counter return to their floor values (5000, 0)
only in the `onopen` handler — the backoff path never lowers the delay
back to 5000. -/
theorem c5_backoff :
    delayAfter 0 = 5000 ∧
    (∀ k, delayAfter (k + 1) = min (delayAfter k * (3 / 2)) 60000) ∧
    (delayAfter 1 = 7500 ∧ delayAfter 2 = 11250 ∧ delayAfter 3 = 16875 ∧
      delayAfter 4 = 25312 + 1 / 2) ∧
    (∀ k, 5000 ≤ delayAfter k ∧ delayAfter k ≤ 60000) ∧
    (∀ k, 7500 ≤ delayAfter (k + 1)) ∧
    (∀ st, st.reconnectAttempts < maxReconnectAttempts →
      handleReconnect st = some (st.reconnectDelay,
        { st with reconnectAttempts := st.reconnectAttempts + 1
                , reconnectDelay := min (st.reconnectDelay * (3 / 2)) 60000 })) ∧
    (∀ st, (onOpen st).1.reconnectDelay = 5000 ∧ (onOpen st).1.reconnectAttempts = 0) := by
  have e0 : delayAfter 0 = 5000 := rfl
  have e1 : delayAfter 1 = 7500 := by
    show backoffStep (delayAfter 0) = 7500
    rw [e0]; unfold backoffStep; norm_num [min_def]
  have e2 : delayAfter 2 = 11250 := by
    show backoffStep (delayAfter 1) = 11250
    rw [e1]; unfold backoffStep; norm_num [min_def]
  have e3 : delayAfter 3 = 16875 := by
    show backoffStep (delayAfter 2) = 16875
    rw [e2]; unfold backoffStep; norm_num [min_def]
  have e4 : delayAfter 4 = 25312 + 1 / 2 := by
    show backoffStep (delayAfter 3) = 25312 + 1 / 2
    rw [e3]; unfold backoffStep; norm_num [min_def]
  have hub : ∀ k, 5000 ≤ delayAfter k ∧ delayAfter k ≤ 60000 := by
    intro k
    induction k with
    | zero => rw [e0]; norm_num
    | succ k ih =>
      obtain ⟨h1, h2⟩ := ih
      constructor
      · show 5000 ≤ backoffStep (delayAfter k)
        unfold backoffStep
        rw [le_min_iff]
        constructor
        · linarith
        · norm_num
      · show backoffStep (delayAfter k) ≤ 60000
        exact min_le_right _ _
  refine ⟨e0, fun k => rfl, ⟨e1, e2, e3, e4⟩, hub, ?_, ?_, ?_⟩
  · intro k
    have h1 := (hub k).1
    show 7500 ≤ backoffStep (delayAfter k)
    unfold backoffStep
    rw [le_min_iff]
    constructor
    · linarith
    · norm_num
  · intro st hst
    unfold handleReconnect
    rw [if_neg (by omega)]
    rfl
  · intro st
    exact ⟨rfl, rfl⟩

/-- C9 counterexample: the live discovery path
(`quickWalletDiscovery` → `analyzeWalletProfitability`) never consults
`trackedWallets`: an extracted address that is already in the watched set
still produces a candidate-wallet upsert, while the claim says it must
produce none. -/
theorem c9_counterexample :
    swapAddr ∈ trackedState.trackedWallets ∧
    (handleLogNotification trackedState swapEntry).2 =
      [Effect.classified true,
        Effect.upsertCandidate (mkCandidate swapAddr "sigA" (some 123))] := by
  refine ⟨by decide, by decide⟩

/-- C9 (amended): on a classified-relevant notification the sink upserts a
candidate record (conflict-keyed on the address) for every extracted
address, whether or not the address is already in `trackedWallets`. -/
theorem c9_amended_sink (st : MonitorState) (e : Option LogEntry) (s : String)
    (ls : List (List Char)) (hs : sigOf e = some s)
    (hmem : s ∉ st.processedTransactions) (hls : logsOf e = some ls)
    (hdex : isDEXTransaction ls = true) :
    (handleLogNotification st e).2 =
      Effect.classified true ::
        (extractWalletAddresses ls).map fun a =>
          Effect.upsertCandidate (mkCandidate a s (slotOf e)) := by
  simp only [handleLogNotification, hs, hls]
  rw [if_neg hmem, if_pos hdex]

/-- Witness for `c9_amended_sink` at the `swapAddr` notification. -/
theorem c9_amended_sink_witness :
    (handleLogNotification initialState swapEntry).2 =
      Effect.classified true ::
        (extractWalletAddresses [swapAddr]).map fun a =>
          Effect.upsertCandidate (mkCandidate a "sigA" (slotOf swapEntry)) :=
  c9_amended_sink initialState swapEntry "sigA" [swapAddr]
    (by decide) (by decide) (by decide) (by decide)
